import Mathlib

/-!
Verification of the name-transformation utilities (`src/utils/tool-names.ts`)
and the page generator (`scripts/generate-pages.ts`) of the repository.

JavaScript strings are modelled as lists of natural-number code units
(`JStr := List Nat`); every character appearing in the sources is ASCII, so
code units and code points coincide. The regex substitutions
`replace(/([A-Z])/g, "-$1")` and `replace(/([A-Z])/g, " $1")` insert a
separator before every character in the range `A`-`Z`; `toLowerCase` is
modelled on its ASCII fragment (`A`-`Z` to `a`-`z`, identity on the other
code units below 128), and theorems involving it keep their inputs inside
that fragment; `trim` strips the JavaScript whitespace set from both ends;
`String.prototype.replace` with a string pattern replaces the first
occurrence of the pattern.
-/

/-- JavaScript string: a list of code units. -/
abbrev JStr := List Nat

/-- Code units of a Lean string literal, for concrete examples. -/
def lit (s : String) : JStr := s.toList.map Char.toNat

/-- The regex class `[A-Z]`: code units 65 to 90. -/
def isUpperCode (c : Nat) : Bool := decide (65 ≤ c ∧ c ≤ 90)

/-- Lowercase ASCII letters `a`-`z`: code units 97 to 122. -/
def isLowerCode (c : Nat) : Bool := decide (97 ≤ c ∧ c ≤ 122)

/-- `String.prototype.toLowerCase`, per code unit, on its ASCII fragment:
maps `A`-`Z` to `a`-`z` and fixes every other code unit. This coincides
with the JavaScript function exactly on code units below 128; non-ASCII
code units carry further Unicode lowercase mappings (e.g. 201 to 233) that
are not modelled, so every theorem about lowercasing restricts its inputs
to ASCII (capitalized ASCII words, or an explicit bound below 128). -/
def toLowerJS (c : Nat) : Nat := if isUpperCode c then c + 32 else c

/-- `s.replace(/([A-Z])/g, sep + "$1")`: insert `sep` before every
uppercase letter. -/
def insertBeforeUpper (sep : Nat) : JStr → JStr
  | [] => []
  | c :: t =>
    if isUpperCode c then sep :: c :: insertBeforeUpper sep t
    else c :: insertBeforeUpper sep t

/-- The JavaScript whitespace set recognised by `String.prototype.trim`
(WhiteSpace plus LineTerminator code points). -/
def isJsSpace (c : Nat) : Bool :=
  c ∈ [9, 10, 11, 12, 13, 32, 160, 5760, 8192, 8193, 8194, 8195, 8196,
       8197, 8198, 8199, 8200, 8201, 8202, 8232, 8233, 8239, 8287, 12288,
       65279]

/-- `String.prototype.trim`: drop leading and trailing whitespace. -/
def trimJS (s : JStr) : JStr :=
  ((s.dropWhile isJsSpace).reverse.dropWhile isJsSpace).reverse

/-- `toKebabCase` from `src/utils/tool-names.ts`:
`componentName.replace(/([A-Z])/g, "-$1").toLowerCase().slice(1)`. -/
def toKebabCase (componentName : JStr) : JStr :=
  ((insertBeforeUpper 45 componentName).map toLowerJS).drop 1

/-- `toTitleCase` from `src/utils/tool-names.ts`:
`componentName.replace(/([A-Z])/g, " $1").trim()`. -/
def toTitleCase (componentName : JStr) : JStr :=
  trimJS (insertBeforeUpper 32 componentName)

/-- `startsWithL s p`: `p` is an initial segment of `s`. -/
def startsWithL : JStr → JStr → Bool
  | _, [] => true
  | [], _ :: _ => false
  | c :: s, p :: ps => c == p && startsWithL s ps

/-- `String.prototype.endsWith` for a concrete search string. -/
def endsWithL (s pat : JStr) : Bool := startsWithL s.reverse pat.reverse

/-- `String.prototype.replace` with a string pattern: replace the first
occurrence of `pat` in `s` by `repl` (the whole string is returned
unchanged when `pat` does not occur). -/
def replaceFirst : JStr → JStr → JStr → JStr
  | [], pat, repl => if pat.isEmpty then repl else []
  | c :: s, pat, repl =>
    if startsWithL (c :: s) pat then repl ++ (c :: s).drop pat.length
    else c :: replaceFirst s pat repl

/-- The template-literal page body built by `scripts/generate-pages.ts`
for a given component name. -/
def pageContent (componentName : JStr) : JStr :=
  lit "---\nimport Layout from \"@/layouts/Layout.astro\";\nimport "
    ++ componentName
    ++ lit " from \"@/tools/"
    ++ componentName
    ++ lit "\";\n---\n\n<Layout>\n\t<"
    ++ componentName
    ++ lit " client:load />\n</Layout>\n"

/-- The inline `pageName` computation of `scripts/generate-pages.ts`
(lines 11-14): `componentName.replace(/([A-Z])/g, "-$1").toLowerCase().slice(1)`. -/
def pageName (componentName : JStr) : JStr :=
  ((insertBeforeUpper 45 componentName).map toLowerJS).drop 1

/-- The output directory, modelled as a map from file name to file content. -/
abbrev FS := JStr → Option JStr

/-- `writeFileSync`: update the map at one path, silently overwriting. -/
def writeFs (fs : FS) (p c : JStr) : FS :=
  fun q => if q = p then some c else fs q

/-- The generation pass of `scripts/generate-pages.ts`: filter the listing
to `.tsx` files and, for each, strip the first occurrence of `".tsx"`,
compute the page name, and write `<pageName>.astro` with the template
content. -/
def generatePages (files : List JStr) (fs : FS) : FS :=
  (files.filter (fun file => endsWithL file (lit ".tsx"))).foldl
    (fun fs file =>
      let componentName := replaceFirst file (lit ".tsx") []
      writeFs fs (pageName componentName ++ lit ".astro")
        (pageContent componentName))
    fs

/-- Apply a list of (path, content) writes in order. -/
def applyWrites (ws : List (JStr × JStr)) (fs : FS) : FS :=
  ws.foldl (fun fs w => writeFs fs w.1 w.2) fs

/-- The last content written to `p` by the write list `ws`, if any. -/
def findLast : List (JStr × JStr) → JStr → Option JStr
  | [], _ => none
  | w :: t, p =>
    match findLast t p with
    | some c => some c
    | none => if p = w.1 then some w.2 else none

/-- Declarative description of the writes the generator performs, phrased
with the exported `toKebabCase`. -/
def writesSpec (files : List JStr) : List (JStr × JStr) :=
  (files.filter (fun file => endsWithL file (lit ".tsx"))).map
    (fun file =>
      (toKebabCase (replaceFirst file (lit ".tsx") []) ++ lit ".astro",
       pageContent (replaceFirst file (lit ".tsx") [])))

/-- Modelled from the spec for claim C2: the claimed write list, computing
the widget identifier by stripping the `".tsx"` suffix (the last four code
units) instead of replacing its first occurrence. -/
def writesStripSuffixSpec (files : List JStr) : List (JStr × JStr) :=
  (files.filter (fun file => endsWithL file (lit ".tsx"))).map
    (fun file =>
      (toKebabCase (file.take (file.length - 4)) ++ lit ".astro",
       pageContent (file.take (file.length - 4))))

/-- A word of a PascalCase identifier: one uppercase letter followed by
zero or more lowercase letters. -/
def capWord : JStr → Bool
  | [] => false
  | c :: t => isUpperCode c && t.all isLowerCode

/-- `w0 + sep + w1 + sep + ... + sep + wn`. -/
def joinSep (sep : Nat) : List JStr → JStr
  | [] => []
  | [w] => w
  | w :: ws => w ++ sep :: joinSep sep ws

example : toKebabCase (lit "CircleImageCropper") = lit "circle-image-cropper" := by decide
example : toKebabCase (lit "HTTPClient") = lit "h-t-t-p-client" := by decide
example : toTitleCase (lit "SgTaxCalculator") = lit "Sg Tax Calculator" := by decide
example : toKebabCase (lit "foo") = lit "oo" := by decide
example : replaceFirst (lit "A.tsxB.tsx") (lit ".tsx") [] = lit "AB.tsx" := by decide
example : endsWithL (lit "Foo.tsx") (lit ".tsx") = true := by decide
example :
    generatePages [lit "A.tsxB.tsx"] (fun _ => none) (lit "a-b.tsx.astro")
      = some (pageContent (lit "AB.tsx")) := by decide

/-! ### Character-class facts -/

theorem isUpperCode_toLowerJS (c : Nat) : isUpperCode (toLowerJS c) = false := by
  unfold toLowerJS isUpperCode
  by_cases h : 65 ≤ c ∧ c ≤ 90
  · rw [if_pos (by simpa using h)]
    simp only [decide_eq_false_iff_not]
    omega
  · rw [if_neg (by simpa using h)]
    simp only [decide_eq_false_iff_not]
    exact h

theorem isLowerCode_toLowerJS_of_capChar (c : Nat)
    (h : isUpperCode c = true ∨ isLowerCode c = true) :
    isLowerCode (toLowerJS c) = true := by
  simp only [isUpperCode, isLowerCode, decide_eq_true_eq] at h
  unfold toLowerJS isUpperCode isLowerCode
  by_cases hu : 65 ≤ c ∧ c ≤ 90
  · rw [if_pos (by simpa using hu)]
    simp only [decide_eq_true_eq]
    omega
  · rw [if_neg (by simpa using hu)]
    simp only [decide_eq_true_eq]
    omega

theorem not_upper_of_lower {c : Nat} (h : isLowerCode c = true) :
    isUpperCode c = false := by
  unfold isLowerCode isUpperCode at *
  simp_all
  omega

theorem not_space_of_upper {c : Nat} (h : isUpperCode c = true) :
    isJsSpace c = false := by
  unfold isUpperCode isJsSpace at *
  simp_all
  omega

theorem not_space_of_lower {c : Nat} (h : isLowerCode c = true) :
    isJsSpace c = false := by
  unfold isLowerCode isJsSpace at *
  simp_all
  omega

/-! ### `insertBeforeUpper` -/

theorem insertBeforeUpper_append (sep : Nat) (a b : JStr) :
    insertBeforeUpper sep (a ++ b)
      = insertBeforeUpper sep a ++ insertBeforeUpper sep b := by
  induction a with
  | nil => rfl
  | cons c t ih =>
    simp only [List.cons_append, insertBeforeUpper]
    split <;> simp [ih]

theorem insertBeforeUpper_eq_self {s : JStr} (sep : Nat)
    (h : ∀ c ∈ s, isUpperCode c = false) :
    insertBeforeUpper sep s = s := by
  induction s with
  | nil => rfl
  | cons c t ih =>
    have hc : isUpperCode c = false := h c (List.mem_cons_self c t)
    simp only [insertBeforeUpper, hc]
    simp only [Bool.false_eq_true, if_false]
    rw [ih fun x hx => h x (List.mem_cons_of_mem c hx)]

theorem capWord_head_tail {w : JStr} (h : capWord w = true) :
    ∃ c t, w = c :: t ∧ isUpperCode c = true ∧ ∀ x ∈ t, isLowerCode x = true := by
  cases w with
  | nil => simp [capWord] at h
  | cons c t =>
    simp only [capWord, Bool.and_eq_true, List.all_eq_true] at h
    exact ⟨c, t, rfl, h.1, h.2⟩

theorem capWord_mem {w : JStr} {c : Nat} (h : capWord w = true) (hc : c ∈ w) :
    isUpperCode c = true ∨ isLowerCode c = true := by
  obtain ⟨d, t, rfl, hd, ht⟩ := capWord_head_tail h
  rcases List.mem_cons.mp hc with rfl | hmem
  · exact Or.inl hd
  · exact Or.inr (ht c hmem)

theorem insertBeforeUpper_capWord {w : JStr} (sep : Nat) (h : capWord w = true) :
    insertBeforeUpper sep w = sep :: w := by
  obtain ⟨c, t, rfl, hc, ht⟩ := capWord_head_tail h
  simp only [insertBeforeUpper, hc, if_true]
  rw [insertBeforeUpper_eq_self sep fun x hx => not_upper_of_lower (ht x hx)]

/-! ### `joinSep` -/

theorem joinSep_cons_cons (sep : Nat) (w w' : JStr) (ws : List JStr) :
    joinSep sep (w :: w' :: ws) = w ++ sep :: joinSep sep (w' :: ws) := rfl

theorem insertBeforeUpper_join {ws : List JStr} (sep : Nat) (hne : ws ≠ [])
    (h : ∀ w ∈ ws, capWord w = true) :
    insertBeforeUpper sep ws.flatten = sep :: joinSep sep ws := by
  induction ws with
  | nil => exact absurd rfl hne
  | cons w ws ih =>
    cases ws with
    | nil =>
      have hflat : ([w] : List JStr).flatten = w := by simp
      rw [hflat]
      exact insertBeforeUpper_capWord sep (h w (List.mem_cons_self w []))
    | cons w' ws' =>
      have hw : capWord w = true := h w (List.mem_cons_self _ _)
      have hrest : ∀ x ∈ w' :: ws', capWord x = true :=
        fun x hx => h x (List.mem_cons_of_mem w hx)
      calc insertBeforeUpper sep ((w :: w' :: ws').flatten)
          = insertBeforeUpper sep (w ++ (w' :: ws').flatten) := by
            simp [List.flatten]
        _ = insertBeforeUpper sep w ++ insertBeforeUpper sep ((w' :: ws').flatten) :=
            insertBeforeUpper_append sep _ _
        _ = (sep :: w) ++ (sep :: joinSep sep (w' :: ws')) := by
            rw [insertBeforeUpper_capWord sep hw, ih (by simp) hrest]
        _ = sep :: joinSep sep (w :: w' :: ws') := by
            rw [joinSep_cons_cons]
            simp

theorem map_joinSep (f : Nat → Nat) (sep : Nat) (ws : List JStr) :
    (joinSep sep ws).map f = joinSep (f sep) (ws.map (List.map f)) := by
  induction ws with
  | nil => rfl
  | cons w ws ih =>
    cases ws with
    | nil => rfl
    | cons w' ws' =>
      rw [joinSep_cons_cons, List.map_append, List.map_cons, ih]
      simp [joinSep_cons_cons]

theorem mem_joinSep {sep c : Nat} {ws : List JStr} (h : c ∈ joinSep sep ws) :
    c = sep ∨ ∃ w ∈ ws, c ∈ w := by
  induction ws with
  | nil => simp [joinSep] at h
  | cons w ws ih =>
    cases ws with
    | nil =>
      simp only [joinSep] at h
      exact Or.inr ⟨w, List.mem_cons_self _ _, h⟩
    | cons w' ws' =>
      rw [joinSep_cons_cons] at h
      rcases List.mem_append.mp h with hw | hrest
      · exact Or.inr ⟨w, List.mem_cons_self _ _, hw⟩
      · rcases List.mem_cons.mp hrest with rfl | htail
        · exact Or.inl rfl
        · rcases ih htail with hsep | ⟨x, hx, hcx⟩
          · exact Or.inl hsep
          · exact Or.inr ⟨x, List.mem_cons_of_mem w hx, hcx⟩

/-- Core computation behind claims C1 and C4: on a concatenation of
capitalized words, `toKebabCase` yields the lowercased words joined by
hyphens. -/
theorem toKebabCase_join {ws : List JStr} (hne : ws ≠ [])
    (h : ∀ w ∈ ws, capWord w = true) :
    toKebabCase ws.flatten = joinSep 45 (ws.map (List.map toLowerJS)) := by
  unfold toKebabCase
  rw [insertBeforeUpper_join 45 hne h]
  rw [List.map_cons, List.drop_one, List.tail_cons, map_joinSep]
  norm_num [toLowerJS, isUpperCode]

/-! ### `trimJS` and `toTitleCase` -/

theorem exists_concat_mem (l : JStr) (h : l ≠ []) :
    ∃ Y c, l = Y ++ [c] ∧ c ∈ l := by
  induction l with
  | nil => exact absurd rfl h
  | cons a t ih =>
    cases t with
    | nil => exact ⟨[], a, rfl, List.mem_cons_self _ _⟩
    | cons b t' =>
      obtain ⟨Y, c, heq, hmem⟩ := ih (by simp)
      exact ⟨a :: Y, c, by rw [List.cons_append, ← heq],
        List.mem_cons_of_mem a hmem⟩

theorem joinSep_head {sep : Nat} {ws : List JStr} (hne : ws ≠ [])
    (h : ∀ w ∈ ws, capWord w = true) :
    ∃ c t, joinSep sep ws = c :: t ∧ isUpperCode c = true := by
  cases ws with
  | nil => exact absurd rfl hne
  | cons w ws' =>
    obtain ⟨c, t, rfl, hc, _⟩ := capWord_head_tail (h w (List.mem_cons_self _ _))
    cases ws' with
    | nil => exact ⟨c, t, rfl, hc⟩
    | cons w' ws'' =>
      exact ⟨c, t ++ sep :: joinSep sep (w' :: ws''), by
        rw [joinSep_cons_cons]; simp, hc⟩

theorem joinSep_last {sep : Nat} {ws : List JStr} (hne : ws ≠ [])
    (h : ∀ w ∈ ws, capWord w = true) :
    ∃ Y c, joinSep sep ws = Y ++ [c] ∧ isJsSpace c = false := by
  induction ws with
  | nil => exact absurd rfl hne
  | cons w ws' ih =>
    cases ws' with
    | nil =>
      have hw := h w (List.mem_cons_self _ _)
      have hwne : w ≠ [] := by
        obtain ⟨c, t, rfl, _, _⟩ := capWord_head_tail hw
        simp
      obtain ⟨Y, c, heq, hmem⟩ := exists_concat_mem w hwne
      refine ⟨Y, c, heq, ?_⟩
      rcases capWord_mem hw hmem with hu | hl
      · exact not_space_of_upper hu
      · exact not_space_of_lower hl
    | cons w' ws'' =>
      obtain ⟨Y, c, heq, hc⟩ := ih (by simp)
        (fun x hx => h x (List.mem_cons_of_mem w hx))
      refine ⟨w ++ sep :: Y, c, ?_, hc⟩
      rw [joinSep_cons_cons, heq]
      simp

theorem trimJS_cons_space {X : JStr}
    (hhead : ∃ c t, X = c :: t ∧ isJsSpace c = false)
    (hlast : ∃ Y c, X = Y ++ [c] ∧ isJsSpace c = false) :
    trimJS (32 :: X) = X := by
  obtain ⟨c, t, rfl, hc⟩ := hhead
  obtain ⟨Y, d, heq, hd⟩ := hlast
  unfold trimJS
  have h32 : isJsSpace 32 = true := by decide
  rw [List.dropWhile_cons]
  simp only [h32, if_true]
  rw [List.dropWhile_cons]
  simp only [hc, Bool.false_eq_true, if_false]
  rw [heq, List.reverse_append, List.reverse_singleton, List.singleton_append,
    List.dropWhile_cons]
  simp only [hd, Bool.false_eq_true, if_false]
  simp

/-- Core computation behind claims C5 and C6: on a concatenation of
capitalized words, `toTitleCase` yields the words joined by spaces. -/
theorem toTitleCase_flatten {ws : List JStr} (hne : ws ≠ [])
    (h : ∀ w ∈ ws, capWord w = true) :
    toTitleCase ws.flatten = joinSep 32 ws := by
  unfold toTitleCase
  rw [insertBeforeUpper_join 32 hne h]
  apply trimJS_cons_space
  · obtain ⟨c, t, heq, hc⟩ := joinSep_head hne h
    exact ⟨c, t, heq, not_space_of_upper hc⟩
  · exact joinSep_last hne h

/-! ### Filtering and counting separators -/

theorem filter_ne_self {sep : Nat} {w : JStr} (h : sep ∉ w) :
    w.filter (fun c => c != sep) = w := by
  apply List.filter_eq_self.mpr
  intro a ha
  simp only [bne_iff_ne, ne_eq]
  exact fun heq => h (heq ▸ ha)

theorem filter_ne_joinSep {sep : Nat} {ws : List JStr}
    (h : ∀ w ∈ ws, sep ∉ w) :
    (joinSep sep ws).filter (fun c => c != sep) = ws.flatten := by
  induction ws with
  | nil => rfl
  | cons w ws' ih =>
    cases ws' with
    | nil =>
      show (joinSep sep [w]).filter _ = [w].flatten
      have : joinSep sep [w] = w := rfl
      rw [this, filter_ne_self (h w (List.mem_cons_self _ _))]
      simp
    | cons w' ws'' =>
      rw [joinSep_cons_cons, List.filter_append, List.filter_cons]
      simp only [bne_self_eq_false, Bool.false_eq_true, if_false]
      rw [filter_ne_self (h w (List.mem_cons_self _ _)),
        ih fun x hx => h x (List.mem_cons_of_mem w hx)]
      simp

theorem count_joinSep {sep : Nat} {ws : List JStr} (hne : ws ≠ [])
    (h : ∀ w ∈ ws, sep ∉ w) :
    (joinSep sep ws).count sep = ws.length - 1 := by
  induction ws with
  | nil => exact absurd rfl hne
  | cons w ws' ih =>
    cases ws' with
    | nil =>
      show (joinSep sep [w]).count sep = 0
      have : joinSep sep [w] = w := rfl
      rw [this]
      exact List.count_eq_zero.mpr (h w (List.mem_cons_self _ _))
    | cons w' ws'' =>
      rw [joinSep_cons_cons, List.count_append, List.count_cons]
      rw [List.count_eq_zero.mpr (h w (List.mem_cons_self _ _)),
        ih (by simp) fun x hx => h x (List.mem_cons_of_mem w hx)]
      simp

theorem mem_map_toLowerJS_capWord {w : JStr} (h : capWord w = true) {c : Nat}
    (hc : c ∈ w.map toLowerJS) : isLowerCode c = true := by
  obtain ⟨d, hd, rfl⟩ := List.mem_map.mp hc
  exact isLowerCode_toLowerJS_of_capChar d (capWord_mem h hd)

theorem hyphen_not_mem_lowered {w : JStr} (h : capWord w = true) :
    (45 : Nat) ∉ w.map toLowerJS := by
  intro hmem
  have := mem_map_toLowerJS_capWord h hmem
  simp [isLowerCode] at this

theorem space_not_mem_capWord {w : JStr} (h : capWord w = true) :
    (32 : Nat) ∉ w := by
  intro hmem
  rcases capWord_mem h hmem with hu | hl
  · simp [isUpperCode] at hu
  · simp [isLowerCode] at hl

theorem map_toLowerJS_id {s : JStr} (h : ∀ c ∈ s, isUpperCode c = false) :
    s.map toLowerJS = s := by
  induction s with
  | nil => rfl
  | cons c t ih =>
    rw [List.map_cons, ih fun x hx => h x (List.mem_cons_of_mem c hx)]
    have hc : isUpperCode c = false := h c (List.mem_cons_self c t)
    simp [toLowerJS, hc]

/-! ### The generator as a write list -/

theorem pageName_eq (s : JStr) : pageName s = toKebabCase s := rfl

theorem generatePages_eq_applyWrites (files : List JStr) (fs : FS) :
    generatePages files fs = applyWrites (writesSpec files) fs := by
  unfold generatePages applyWrites writesSpec
  rw [List.foldl_map]
  rfl

theorem applyWrites_lookup (ws : List (JStr × JStr)) (fs : FS) (p : JStr) :
    applyWrites ws fs p = ((findLast ws p).map some).getD (fs p) := by
  induction ws generalizing fs with
  | nil => rfl
  | cons w t ih =>
    have hstep : applyWrites (w :: t) fs = applyWrites t (writeFs fs w.1 w.2) := rfl
    rw [hstep, ih]
    cases hft : findLast t p with
    | some c => simp [findLast, hft]
    | none =>
      simp only [findLast, hft]
      by_cases hp : p = w.1
      · simp [writeFs, hp]
      · simp [writeFs, hp]

theorem generatePages_append (l1 l2 : List JStr) (fs : FS) :
    generatePages (l1 ++ l2) fs = generatePages l2 (generatePages l1 fs) := by
  unfold generatePages
  rw [List.filter_append, List.foldl_append]

theorem length_insertBeforeUpper_le (sep : Nat) (s : JStr) :
    (insertBeforeUpper sep s).length ≤ 2 * s.length := by
  induction s with
  | nil => simp [insertBeforeUpper]
  | cons c t ih =>
    simp only [insertBeforeUpper]
    split <;> simp only [List.length_cons] <;> omega

theorem length_dropWhile_le (p : Nat → Bool) (l : JStr) :
    (l.dropWhile p).length ≤ l.length := by
  induction l with
  | nil => simp
  | cons a t ih =>
    rw [List.dropWhile_cons]
    split
    · exact le_trans ih (by simp)
    · simp

theorem length_trimJS_le (s : JStr) : (trimJS s).length ≤ s.length := by
  unfold trimJS
  calc ((s.dropWhile isJsSpace).reverse.dropWhile isJsSpace).reverse.length
      = ((s.dropWhile isJsSpace).reverse.dropWhile isJsSpace).length := by
        rw [List.length_reverse]
    _ ≤ (s.dropWhile isJsSpace).reverse.length := length_dropWhile_le _ _
    _ = (s.dropWhile isJsSpace).length := by rw [List.length_reverse]
    _ ≤ s.length := length_dropWhile_le _ _

theorem map_flatten (f : Nat → Nat) (ls : List JStr) :
    ls.flatten.map f = (ls.map (List.map f)).flatten := by
  induction ls with
  | nil => rfl
  | cons w ws ih => simp [List.flatten_cons, ih]

/-! ### Claims -/

/-- Claim C1: for every widget identifier that is a concatenation of one or
more capitalized words, `toKebabCase` returns the lowercased words joined
by single hyphens — no leading hyphen and no empty segments, with one
hyphen per capital-letter transition. -/
theorem C1_kebab_of_capWords (ws : List JStr) (hne : ws ≠ [])
    (h : ∀ w ∈ ws, capWord w = true) :
    toKebabCase ws.flatten = joinSep 45 (ws.map (List.map toLowerJS)) :=
  toKebabCase_join hne h

theorem C1_witness :
    (toKebabCase ([lit "Circle", lit "Image", lit "Cropper"] : List JStr).flatten
        = joinSep 45 ([lit "Circle", lit "Image", lit "Cropper"].map (List.map toLowerJS))
      ∧ joinSep 45 ([lit "Circle", lit "Image", lit "Cropper"].map (List.map toLowerJS))
        = lit "circle-image-cropper")
    ∧ (toKebabCase ([lit "H", lit "T", lit "T", lit "P", lit "Client"] : List JStr).flatten
        = joinSep 45 ([lit "H", lit "T", lit "T", lit "P", lit "Client"].map (List.map toLowerJS))
      ∧ joinSep 45 ([lit "H", lit "T", lit "T", lit "P", lit "Client"].map (List.map toLowerJS))
        = lit "h-t-t-p-client") :=
  ⟨⟨C1_kebab_of_capWords _ (by decide) (by decide), by decide⟩,
   ⟨C1_kebab_of_capWords _ (by decide) (by decide), by decide⟩⟩

/-- Claim C4: for every valid PascalCase identifier with `n` capitalized
words, `toKebabCase` yields exactly `n - 1` hyphens and no uppercase
letters. -/
theorem C4_hyphens_and_case (ws : List JStr) (hne : ws ≠ [])
    (h : ∀ w ∈ ws, capWord w = true) :
    (toKebabCase ws.flatten).count 45 = ws.length - 1
    ∧ ∀ c ∈ toKebabCase ws.flatten, isUpperCode c = false := by
  rw [toKebabCase_join hne h]
  have hno45 : ∀ lw ∈ ws.map (List.map toLowerJS), (45 : Nat) ∉ lw := by
    intro lw hlw
    obtain ⟨w, hw, rfl⟩ := List.mem_map.mp hlw
    exact hyphen_not_mem_lowered (h w hw)
  constructor
  · rw [count_joinSep (by simpa using hne) hno45]
    simp
  · intro c hc
    rcases mem_joinSep hc with rfl | ⟨lw, hlw, hclw⟩
    · decide
    · obtain ⟨w, hw, rfl⟩ := List.mem_map.mp hlw
      exact not_upper_of_lower (mem_map_toLowerJS_capWord (h w hw) hclw)

theorem C4_witness :
    (toKebabCase ([lit "Sg", lit "Tax", lit "Calculator"] : List JStr).flatten).count 45
        = ([lit "Sg", lit "Tax", lit "Calculator"] : List JStr).length - 1
    ∧ ∀ c ∈ toKebabCase ([lit "Sg", lit "Tax", lit "Calculator"] : List JStr).flatten,
        isUpperCode c = false :=
  C4_hyphens_and_case _ (by decide) (by decide)

/-- Claim C5: for every valid PascalCase identifier, `toTitleCase` with all
spaces removed and then lowercased equals `toKebabCase` with all hyphens
removed. -/
theorem C5_title_kebab_agree (ws : List JStr) (hne : ws ≠ [])
    (h : ∀ w ∈ ws, capWord w = true) :
    ((toTitleCase ws.flatten).filter (fun c => c != 32)).map toLowerJS
      = (toKebabCase ws.flatten).filter (fun c => c != 45) := by
  rw [toTitleCase_flatten hne h, toKebabCase_join hne h]
  rw [filter_ne_joinSep fun w hw => space_not_mem_capWord (h w hw)]
  rw [filter_ne_joinSep ?h45]
  case h45 =>
    intro lw hlw
    obtain ⟨w, hw, rfl⟩ := List.mem_map.mp hlw
    exact hyphen_not_mem_lowered (h w hw)
  exact map_flatten toLowerJS ws

theorem C5_witness :
    ((toTitleCase ([lit "Circle", lit "Image", lit "Cropper"] : List JStr).flatten).filter
        (fun c => c != 32)).map toLowerJS
      = (toKebabCase ([lit "Circle", lit "Image", lit "Cropper"] : List JStr).flatten).filter
        (fun c => c != 45) :=
  C5_title_kebab_agree _ (by decide) (by decide)

/-- Claim C6: for every widget identifier that is a concatenation of
capitalized words, `toTitleCase` inserts a space before every internal
uppercase letter and trims: the result is the words joined by single
spaces, with no leading or trailing space, and a single word is returned
unchanged. -/
theorem C6_title_of_capWords (ws : List JStr) (hne : ws ≠ [])
    (h : ∀ w ∈ ws, capWord w = true) :
    toTitleCase ws.flatten = joinSep 32 ws :=
  toTitleCase_flatten hne h

theorem C6_witness :
    (toTitleCase ([lit "Sg", lit "Tax", lit "Calculator"] : List JStr).flatten
        = joinSep 32 [lit "Sg", lit "Tax", lit "Calculator"]
      ∧ joinSep 32 [lit "Sg", lit "Tax", lit "Calculator"] = lit "Sg Tax Calculator")
    ∧ (toTitleCase ([lit "Foo"] : List JStr).flatten = joinSep 32 [lit "Foo"]
      ∧ joinSep 32 [lit "Foo"] = lit "Foo") :=
  ⟨⟨C6_title_of_capWords _ (by decide) (by decide), by decide⟩,
   ⟨C6_title_of_capWords _ (by decide) (by decide), by decide⟩⟩

/-- Claim C8: `toKebabCase` and `toTitleCase` are total on arbitrary
strings — every input, including the empty string and strings with
non-alphabetic characters, yields a result (here additionally bounded by
twice the input length); there is no error path. -/
theorem C8_total (s : JStr) :
    ∃ k t : JStr, toKebabCase s = k ∧ toTitleCase s = t
      ∧ k.length ≤ 2 * s.length ∧ t.length ≤ 2 * s.length := by
  refine ⟨toKebabCase s, toTitleCase s, rfl, rfl, ?_, ?_⟩
  · unfold toKebabCase
    have h1 : (((insertBeforeUpper 45 s).map toLowerJS).drop 1).length
        ≤ ((insertBeforeUpper 45 s).map toLowerJS).length := by
      rw [List.length_drop]
      omega
    have h2 : ((insertBeforeUpper 45 s).map toLowerJS).length
        = (insertBeforeUpper 45 s).length := List.length_map _ _
    have h3 := length_insertBeforeUpper_le 45 s
    omega
  · unfold toTitleCase
    have h1 : (trimJS (insertBeforeUpper 32 s)).length
        ≤ (insertBeforeUpper 32 s).length := length_trimJS_le _
    have h2 := length_insertBeforeUpper_le 32 s
    omega

/-- Claim C10: on an ASCII input (every code unit below 128, the fragment
on which the per-code-unit lowercase model agrees with
`String.prototype.toLowerCase`) containing no uppercase letters,
`toKebabCase` returns the lowercased input with its first code unit
removed — and lowercasing fixes such an input, so the result is the input
minus its first code unit; hence a non-empty all-lowercase identifier
never maps to itself, and a one-character lowercase identifier maps to the
empty string. -/
theorem C10_no_upper (s : JStr)
    (h : ∀ c ∈ s, c < 128 ∧ isUpperCode c = false) :
    toKebabCase s = (s.map toLowerJS).drop 1
    ∧ s.map toLowerJS = s
    ∧ (s ≠ [] → toKebabCase s ≠ s)
    ∧ (s.length = 1 → toKebabCase s = []) := by
  have hup : ∀ c ∈ s, isUpperCode c = false := fun c hc => (h c hc).2
  have hmap : s.map toLowerJS = s := map_toLowerJS_id hup
  have hkeb : toKebabCase s = s.drop 1 := by
    unfold toKebabCase
    rw [insertBeforeUpper_eq_self 45 hup, hmap]
  refine ⟨by rw [hkeb, hmap], hmap, fun hne heq => ?_, fun hone => ?_⟩
  · rw [hkeb] at heq
    have hlen := congrArg List.length heq
    rw [List.length_drop] at hlen
    cases s with
    | nil => exact hne rfl
    | cons c t => simp at hlen
  · rw [hkeb]
    cases s with
    | nil => rfl
    | cons c t =>
      simp only [List.length_cons, Nat.add_left_eq_self] at hone
      simp [List.length_eq_zero.mp hone]

theorem C10_witness :
    toKebabCase (lit "foo") = ((lit "foo").map toLowerJS).drop 1
    ∧ (lit "foo").map toLowerJS = lit "foo"
    ∧ (lit "foo" ≠ [] → toKebabCase (lit "foo") ≠ lit "foo")
    ∧ ((lit "foo").length = 1 → toKebabCase (lit "foo") = []) :=
  C10_no_upper _ (by decide)

/-- Claim C2, counterexample: on the listing `["A.tsxB.tsx"]` the generator
does not strip the `".tsx"` suffix — it removes the first occurrence of
`".tsx"`, producing component name `"AB.tsx"` and output file
`"a-b.tsx.astro"`, whereas suffix stripping would produce component name
`"A.tsxB"` and output file `"a.tsx-b.astro"`. The two resulting directory
maps differ at `"a-b.tsx.astro"`. -/
theorem C2_counterexample :
    generatePages [lit "A.tsxB.tsx"] (fun _ => none) (lit "a-b.tsx.astro")
      ≠ applyWrites (writesStripSuffixSpec [lit "A.tsxB.tsx"]) (fun _ => none)
          (lit "a-b.tsx.astro") := by
  decide

/-- Claim C2 (amended): the generator processes exactly the file names
ending in `".tsx"`; for each it computes the widget identifier by removing
the first occurrence of `".tsx"` (which equals suffix stripping whenever
`".tsx"` only occurs as the suffix), and performs exactly one write, at
`<toKebabCase identifier>.astro`, of the template content that imports the
layout, imports the widget by identifier, and mounts it with
`client:load`. -/
theorem C2_generator_writes (files : List JStr) (fs : FS) :
    generatePages files fs = applyWrites (writesSpec files) fs
    ∧ (writesSpec files).length
        = (files.filter (fun file => endsWithL file (lit ".tsx"))).length :=
  ⟨generatePages_eq_applyWrites files fs, by simp [writesSpec]⟩

/-- Claim C3: the generation pass is deterministic (it is a pure function
of the listing and the starting directory) and idempotent — running it a
second time on the same listing leaves the directory map unchanged. -/
theorem C3_idempotent (files : List JStr) (fs : FS) :
    generatePages files (generatePages files fs) = generatePages files fs := by
  funext p
  simp only [generatePages_eq_applyWrites]
  rw [applyWrites_lookup, applyWrites_lookup]
  cases hft : findLast (writesSpec files) p with
  | some c => simp [hft]
  | none => simp [hft]

/-- Claim C7: when two distinct `.tsx` files in the listing map to the same
slug, the pass reports no error (the model has no error outcome) and the
final content at the shared path `<slug>.astro` is the one derived from the
later-processed file, which silently replaces the earlier write. -/
theorem C7_collision_last_wins (fs : FS) (pre mid : List JStr) (f1 f2 : JStr)
    (hne : f1 ≠ f2)
    (h1 : endsWithL f1 (lit ".tsx") = true)
    (h2 : endsWithL f2 (lit ".tsx") = true)
    (hcol : toKebabCase (replaceFirst f1 (lit ".tsx") [])
        = toKebabCase (replaceFirst f2 (lit ".tsx") [])) :
    generatePages (pre ++ f1 :: mid ++ [f2]) fs
      (toKebabCase (replaceFirst f2 (lit ".tsx") []) ++ lit ".astro")
    = some (pageContent (replaceFirst f2 (lit ".tsx") [])) := by
  have hsplit : pre ++ f1 :: mid ++ [f2] = (pre ++ f1 :: mid) ++ [f2] := by
    simp
  rw [hsplit, generatePages_append]
  show generatePages [f2] (generatePages (pre ++ f1 :: mid) fs) _ = _
  unfold generatePages
  rw [List.filter_cons]
  simp only [h2, if_true, List.filter_nil, List.foldl_cons, List.foldl_nil]
  show writeFs _ (pageName (replaceFirst f2 (lit ".tsx") []) ++ lit ".astro")
      (pageContent (replaceFirst f2 (lit ".tsx") [])) _ = _
  rw [pageName_eq]
  unfold writeFs
  simp

theorem C7_witness :
    generatePages ([] ++ lit "AB.tsx" :: [] ++ [lit "A-b.tsx"]) (fun _ => none)
      (toKebabCase (replaceFirst (lit "A-b.tsx") (lit ".tsx") []) ++ lit ".astro")
    = some (pageContent (replaceFirst (lit "A-b.tsx") (lit ".tsx") [])) :=
  C7_collision_last_wins _ [] [] _ _ (by decide) (by decide) (by decide) (by decide)

/-- Claim C9: the slug computation inlined in the page generator is
extensionally equal to the exported `toKebabCase`: both insert a hyphen
before every uppercase letter, lowercase, and drop the first character. -/
theorem C9_pageName_eq_toKebabCase : ∀ s : JStr, pageName s = toKebabCase s :=
  fun s => pageName_eq s
